import Mathlib

set_option maxHeartbeats 1000000

/-!
Verification of the four bundling scripts of this repository
(`combine_code.py`, `combine_script.py`, `combine_native.py`,
`bundle_widget_context.py`) against their specification.

Paths are modelled as lists of path segments (`List String`): the scripts
only ever build paths with `os.path.join` and take them apart with
`split(os.sep)` / `os.path.relpath`, so a segment list is a faithful
rendering of every path the scripts manipulate.  A directory tree is a
rose tree of named files and named subdirectories; a file carries the
result of `os.path.getsize` (`size`), its raw bytes, and an optional I/O
failure (`ioError`), modelling a file whose `open`/`read` raises.
-/

namespace NockBundle

/-- A file on disk: its basename, its `os.path.getsize` result, its raw
bytes, and `some cause` when opening/reading it raises an `OSError`. -/
structure FileRec where
  name : String
  size : Nat
  bytes : List Nat
  ioError : Option String
deriving DecidableEq, Repr

mutual
/-- A directory: the files it directly contains and its subdirectories,
each list in the (arbitrary but fixed) order the OS enumerates them. -/
inductive Tree where
  | node (files : List FileRec) (subdirs : List DirEnt)
/-- A named subdirectory entry. -/
inductive DirEnt where
  | mk (name : String) (sub : Tree)
end

/-- Name of a subdirectory entry. -/
def DirEnt.name : DirEnt → String
  | .mk n _ => n

/-- Subtree of a subdirectory entry. -/
def DirEnt.sub : DirEnt → Tree
  | .mk _ t => t

mutual
/-- Model of `os.walk(root)` (topdown) with the in-place pruning
`dirs[:] = [d for d in dirs if keep(root, d)]` that all three traversal
scripts perform: at each directory, the files of that directory are
yielded first, then the kept subdirectories are walked in order.
`cur` is the path of the directory being walked; the result pairs each
reached file with its full path. -/
def walkG (keep : List String → String → Bool) (cur : List String) : Tree → List (List String × FileRec)
  | .node files subdirs =>
      files.map (fun f => (cur ++ [f.name], f)) ++ walkDirsG keep cur subdirs

/-- The subdirectory half of `walkG`: walk each kept child in order. -/
def walkDirsG (keep : List String → String → Bool) (cur : List String) : List DirEnt → List (List String × FileRec)
  | [] => []
  | .mk d sub :: rest =>
      (if keep cur d then walkG keep (cur ++ [d]) sub else []) ++ walkDirsG keep cur rest
end

/-- Boolean no-duplicates check on a list of names (a real directory
never contains two entries with the same name). -/
def nodupB : List String → Bool
  | [] => true
  | x :: xs => !(xs.contains x) && nodupB xs

mutual
/-- Well-formedness of a directory tree: within each directory, all entry
names (files and subdirectories together) are pairwise distinct, as on a
real filesystem. -/
def treeWF : Tree → Bool
  | .node files subdirs =>
      nodupB (files.map FileRec.name ++ subdirs.map DirEnt.name) && dirsWF subdirs

/-- Conjunction of `treeWF` over a list of subdirectories. -/
def dirsWF : List DirEnt → Bool
  | [] => true
  | .mk _ sub :: rest => treeWF sub && dirsWF rest
end

/-- Does a name start with a dot?  Model of `part.startswith('.')`. -/
def startsWithDot (s : String) : Bool :=
  match s.data with
  | [] => false
  | c :: _ => c == '.'

/-- Extension part of `os.path.splitext` applied to a basename: the
substring from the last dot onwards, except that a basename whose
characters before its last dot are all dots (e.g. `.json`, `..a`) has no
extension. -/
def extCore (cs : List Char) : List Char :=
  let rcs := cs.reverse
  let after := rcs.takeWhile (fun c => c != '.')
  match rcs.dropWhile (fun c => c != '.') with
  | [] => []
  | _ :: base =>
      if base.all (fun c => c == '.') then [] else '.' :: after.reverse

/-- Model of `os.path.splitext(name)[1]` for a bare filename. -/
def splitextExt (name : String) : String :=
  ⟨extCore name.data⟩

/-- Second-byte constraint of a three-byte UTF-8 sequence. -/
def isCont (b : Nat) : Bool := 0x80 ≤ b && b ≤ 0xBF

/-- Second-byte constraint of a three-byte UTF-8 sequence led by `b`
(excluding overlong forms and surrogates, as CPython does). -/
def isCont2 (b b2 : Nat) : Bool :=
  if b = 0xE0 then 0xA0 ≤ b2 && b2 ≤ 0xBF
  else if b = 0xED then 0x80 ≤ b2 && b2 ≤ 0x9F
  else isCont b2

/-- Second-byte constraint of a four-byte UTF-8 sequence led by `b`
(excluding overlong forms and codepoints beyond U+10FFFF). -/
def isCont3 (b b2 : Nat) : Bool :=
  if b = 0xF0 then 0x90 ≤ b2 && b2 ≤ 0xBF
  else if b = 0xF4 then 0x80 ≤ b2 && b2 ≤ 0x8F
  else isCont b2

/-- Can a two-byte sequence led by `b` be decoded at the front of
`b :: bs`? -/
def twoByteOK (b : Nat) (bs : List Nat) : Bool :=
  (0xC2 ≤ b && b ≤ 0xDF) &&
    (match bs with
     | b2 :: _ => isCont b2
     | [] => false)

/-- The character a valid two-byte sequence decodes to. -/
def twoChar (b : Nat) (bs : List Nat) : Char :=
  Char.ofNat ((b - 0xC0) * 0x40 + (bs.headD 0 - 0x80))

/-- Can a three-byte sequence led by `b` be decoded at the front of
`b :: bs`? -/
def threeByteOK (b : Nat) (bs : List Nat) : Bool :=
  (0xE0 ≤ b && b ≤ 0xEF) &&
    (match bs with
     | b2 :: b3 :: _ => isCont2 b b2 && isCont b3
     | _ => false)

/-- The character a valid three-byte sequence decodes to. -/
def threeChar (b : Nat) (bs : List Nat) : Char :=
  Char.ofNat ((b - 0xE0) * 0x1000 + (bs.headD 0 - 0x80) * 0x40 + ((bs.drop 1).headD 0 - 0x80))

/-- Can a four-byte sequence led by `b` be decoded at the front of
`b :: bs`? -/
def fourByteOK (b : Nat) (bs : List Nat) : Bool :=
  (0xF0 ≤ b && b ≤ 0xF4) &&
    (match bs with
     | b2 :: b3 :: b4 :: _ => isCont3 b b2 && isCont b3 && isCont b4
     | _ => false)

/-- The character a valid four-byte sequence decodes to. -/
def fourChar (b : Nat) (bs : List Nat) : Char :=
  Char.ofNat ((b - 0xF0) * 0x40000 + (bs.headD 0 - 0x80) * 0x1000 +
    ((bs.drop 1).headD 0 - 0x80) * 0x40 + ((bs.drop 2).headD 0 - 0x80))

/-- Fuelled worker for `utf8DecodeIgnore`: each step consumes one fuel
unit and at least one byte, so byte-length fuel never runs out.  When no
valid sequence starts at the current byte, that byte is dropped and
decoding rescans from the next byte. -/
def utf8DecodeIgnoreFuel : Nat → List Nat → List Char
  | 0, _ => []
  | _ + 1, [] => []
  | fuel + 1, b :: bs =>
    if b ≤ 0x7F then Char.ofNat b :: utf8DecodeIgnoreFuel fuel bs
    else if twoByteOK b bs then twoChar b bs :: utf8DecodeIgnoreFuel fuel (bs.drop 1)
    else if threeByteOK b bs then threeChar b bs :: utf8DecodeIgnoreFuel fuel (bs.drop 2)
    else if fourByteOK b bs then fourChar b bs :: utf8DecodeIgnoreFuel fuel (bs.drop 3)
    else utf8DecodeIgnoreFuel fuel bs

/-- Model of decoding bytes as UTF-8 with `errors='ignore'`, the mode all
four scripts pass to `open`: valid sequences decode normally and bytes
at which no valid sequence starts are silently dropped.  (CPython skips
the maximal invalid subpart at once; skipping one byte and rescanning
yields the same output because no valid sequence starts at a
continuation byte, and `ignore` emits nothing for skipped bytes.) -/
def utf8DecodeIgnore (l : List Nat) : List Char :=
  utf8DecodeIgnoreFuel l.length l

/-- A byte at which no UTF-8 sequence can start (a stray continuation
byte 0x80–0xC1 or an out-of-range lead byte 0xF5 and above). -/
def invalidStarter (b : Nat) : Bool :=
  !(b ≤ 0x7F) && !(0xC2 ≤ b && b ≤ 0xDF) && !(0xE0 ≤ b && b ≤ 0xEF) && !(0xF0 ≤ b && b ≤ 0xF4)

/-- One observable outcome per processed file: a bundle entry written to
the output (`added`, with the decoded content), a skipped oversized file
(`tooLarge`), or a caught read failure (`readError`). -/
inductive Event where
  | added (relPath : List String) (content : List Char)
  | tooLarge (relPath : List String)
  | readError (relPath : List String) (cause : String)
deriving DecidableEq, Repr

/-- The path an event reports. -/
def Event.path : Event → List String
  | .added p _ => p
  | .tooLarge p => p
  | .readError p _ => p

/-- The body of the per-file `try` block shared by `combine_code.py` and
`combine_native.py`: skip (and report) a file larger than 1 MiB without
reading it, catch a failing `open`/`read`, otherwise write the entry
with the file's full decoded content. -/
def processSized (relPath : List String) (f : FileRec) : Event :=
  if f.size > 1024 * 1024 then .tooLarge relPath
  else
    match f.ioError with
    | some e => .readError relPath e
    | none => .added relPath (utf8DecodeIgnore f.bytes)

/-- The per-file `try` block of `combine_script.py`, which has no size
ceiling. -/
def processUnsized (relPath : List String) (f : FileRec) : Event :=
  match f.ioError with
  | some e => .readError relPath e
  | none => .added relPath (utf8DecodeIgnore f.bytes)

/-! ### `combine_code.py` -/

/-- Constant `ROOT_DIR = r"e:\Vive"` split into path segments. -/
def ROOT_PARTS : List String := ["e:", "Vive"]

/-- Set `INCLUDE_EXTENSIONS` of `combine_code.py`. -/
def INCLUDE_EXTENSIONS_CC : List String :=
  [".dart", ".yaml",
   ".java", ".kt", ".xml", ".gradle", ".properties",
   ".h", ".m", ".swift", ".plist", ".xib", ".storyboard",
   ".json", ".md"]

/-- Set `INCLUDE_FILENAMES` of `combine_code.py`. -/
def INCLUDE_FILENAMES_CC : List String :=
  ["Podfile", "Gemfile", "AndroidManifest.xml", "Info.plist", "pubspec.yaml", "build.gradle"]

/-- Set `EXCLUDE_DIRS` of `combine_code.py`. -/
def EXCLUDE_DIRS_CC : List String :=
  ["build", ".dart_tool", ".git", ".idea", ".vscode", ".gradle", "Pods",
   "Assets.xcassets", "Runner.xcodeproj", "Runner.xcworkspace",
   "ios/Flutter", "android/app/build", "node_modules"]

/-- Model of `is_excluded(path)` of `combine_code.py`: some segment of the path is
in `EXCLUDE_DIRS` or starts with a dot. -/
def is_excludedCC (parts : List String) : Bool :=
  parts.any (fun part => EXCLUDE_DIRS_CC.contains part || startsWithDot part)

/-- The `dirs[:]` pruning predicate of `combine_code.py`:
`not is_excluded(os.path.join(root, d)) and not d.startswith('.')`. -/
def keepCC (cur : List String) (d : String) : Bool :=
  !is_excludedCC (cur ++ [d]) && !startsWithDot d

/-- The inclusion test of `combine_code.py`:
`ext in INCLUDE_EXTENSIONS or file in INCLUDE_FILENAMES`. -/
def includedCC (fname : String) : Bool :=
  INCLUDE_EXTENSIONS_CC.contains (splitextExt fname) || INCLUDE_FILENAMES_CC.contains fname

/-- Model of `os.path.relpath(file_path, ROOT_DIR)` for a path below `ROOT_DIR`. -/
def relPathFromRoot (p : List String) : List String :=
  p.drop ROOT_PARTS.length

/-- The files `combine_code.py` actually processes, with their absolute
paths, in traversal order: every walked file that passes the per-file
`is_excluded` check and the inclusion test. -/
def candidatesCC (t : Tree) : List (List String × FileRec) :=
  (walkG keepCC ROOT_PARTS t).filter
    (fun pf => !is_excludedCC pf.1 && includedCC pf.2.name)

/-- The per-file outcomes of a `combine_code.py` run over root tree `t`,
in the order they are written/reported. -/
def eventsCC (t : Tree) : List Event :=
  (candidatesCC t).map (fun pf => processSized (relPathFromRoot pf.1) pf.2)

/-! ### `combine_native.py` -/

/-- Set `INCLUDE_EXTENSIONS` of `combine_native.py` (no Dart). -/
def INCLUDE_EXTENSIONS_CN : List String :=
  [".java", ".kt", ".xml", ".gradle", ".properties",
   ".h", ".m", ".swift", ".plist", ".xib", ".storyboard"]

/-- Set `INCLUDE_FILENAMES` of `combine_native.py`. -/
def INCLUDE_FILENAMES_CN : List String :=
  ["Podfile", "Gemfile", "AndroidManifest.xml", "Info.plist", "build.gradle"]

/-- Set `EXCLUDE_DIRS` of `combine_native.py` (adds `lib`). -/
def EXCLUDE_DIRS_CN : List String :=
  ["build", ".dart_tool", ".git", ".idea", ".vscode", ".gradle", "Pods",
   "Assets.xcassets", "Runner.xcodeproj", "Runner.xcworkspace",
   "ios/Flutter", "android/app/build", "node_modules", "lib"]

/-- Model of `is_excluded(path, root_dir)` of `combine_native.py`, applied to the
path relative to the root: some segment is in `EXCLUDE_DIRS` or starts
with a dot. -/
def is_excludedCN (relParts : List String) : Bool :=
  relParts.any (fun part => EXCLUDE_DIRS_CN.contains part || startsWithDot part)

/-- The `dirs[:]` pruning predicate of `combine_native.py`; `cur` is the
directory's path relative to the root. -/
def keepCN (cur : List String) (d : String) : Bool :=
  !is_excludedCN (cur ++ [d])

/-- The inclusion test of `combine_native.py`. -/
def includedCN (fname : String) : Bool :=
  INCLUDE_EXTENSIONS_CN.contains (splitextExt fname) || INCLUDE_FILENAMES_CN.contains fname

/-- List `files_to_process` of `combine_native.py` (paths kept relative to the
root): every walked file passing the inclusion test — `combine_native.py`
applies no per-file exclusion check. -/
def candidatesCN (t : Tree) : List (List String × FileRec) :=
  (walkG keepCN [] t).filter (fun pf => includedCN pf.2.name)

/-- The per-file outcomes of a `combine_native.py` run over root tree
`t`, in order. -/
def eventsCN (t : Tree) : List Event :=
  (candidatesCN t).map (fun pf => processSized pf.1 pf.2)

/-! ### shared root validity (`combine_code.py` / `combine_native.py`) -/

/-- The state of the configured root path `e:\Vive`: missing, an
existing non-directory, or a directory with contents `t`. -/
inductive RootFS where
  | missing
  | nonDir
  | dir (t : Tree)

/-- The failure that aborts a run. `OUTPUT_FILE` lives inside
`ROOT_DIR`, so `open(OUTPUT_FILE, 'w')` raises (FileNotFoundError /
NotADirectoryError) exactly when the root is missing or not a directory,
before anything is written. -/
inductive RunError where
  | rootInvalid
deriving DecidableEq, Repr

/-- Whole-run model of `combine_code.py`: opening the output file under
an invalid root raises before any output exists; otherwise the walk runs
and produces the event sequence. -/
def mainCC : RootFS → Except RunError (List Event)
  | .dir t => .ok (eventsCC t)
  | .missing => .error .rootInvalid
  | .nonDir => .error .rootInvalid

/-- Whole-run model of `combine_native.py`: the walk over an invalid
root yields nothing (`os.walk` is silent on a missing root), and opening
the output file under the invalid root then raises before any output
exists. -/
def mainCN : RootFS → Except RunError (List Event)
  | .dir t => .ok (eventsCN t)
  | .missing => .error .rootInvalid
  | .nonDir => .error .rootInvalid

/-! ### `combine_script.py` -/

/-- Constant `output_file` of `combine_script.py`. -/
def output_file : String := "all_project_code.txt"

/-- Constant `root_dirs` of `combine_script.py`. -/
def root_dirs : List String := ["lib", "android", "ios"]

/-- Set `extensions` of `combine_script.py`. -/
def extensionsCS : List String :=
  [".dart", ".kt", ".java", ".xml", ".gradle", ".swift", ".h", ".m", ".plist", ".yaml", ".sh"]

/-- Set `exclude_dirs` of `combine_script.py`. -/
def exclude_dirsCS : List String :=
  ["build", ".dart_tool", ".idea", ".gradle", "Pods", "node_modules"]

/-- List `specific_includes` of `combine_script.py` (separator-normalized
relative path strings). -/
def specific_includesCS : List String :=
  ["pubspec.yaml", "ios/Runner.xcodeproj/project.pbxproj", "ios/Podfile"]

/-- A relative path rendered with normalized separators, as
`combine_script.py` compares it against `specific_includes`. -/
def relPathStr (p : List String) : String :=
  String.intercalate "/" p

/-- Model of `should_process(file_path)` of `combine_script.py`. -/
def should_process (p : List String) : Bool :=
  if specific_includesCS.contains (relPathStr p) then true
  else if !(extensionsCS.contains (splitextExt (p.getLastD ""))) then false
  else if p.any (fun part => exclude_dirsCS.contains part) then false
  else true

/-- The `dirs[:]` pruning predicate of `combine_script.py`:
`d not in exclude_dirs` (no dot check). -/
def keepCS (_cur : List String) (d : String) : Bool :=
  !(exclude_dirsCS.contains d)

/-- First subdirectory of `t` with the given name, if any — the target of
`os.walk(root_dir)` for a `root_dir` directly under the current
directory (`os.walk` of a missing or non-directory path yields
nothing). -/
def findDir (t : Tree) (n : String) : Option Tree :=
  match t with
  | .node _ subdirs =>
      match subdirs.find? (fun d => d.name == n) with
      | some d => some d.sub
      | none => none

/-- Pass 1 of `combine_script.py` restricted to one `root_dir`: walk it
(if it exists), filter with `should_process`, and bundle in traversal
order. -/
def rootDirPassCS (t : Tree) (rd : String) : List Event :=
  match findDir t rd with
  | some sub =>
      ((walkG keepCS [rd] sub).filter (fun pf => should_process pf.1)).map
        (fun pf => processUnsized pf.1 pf.2)
  | none => []

/-- Pass 1 of `combine_script.py`: the three `root_dirs` in order. -/
def walkPassCS (t : Tree) : List Event :=
  root_dirs.flatMap (rootDirPassCS t)

/-- One entry of `os.listdir(".")`: a root-level file or a root-level
directory name. -/
inductive RootEntry where
  | fileE (f : FileRec)
  | dirE (d : String)
deriving Repr

/-- The name of a root-level entry. -/
def RootEntry.entName : RootEntry → String
  | .fileE f => f.name
  | .dirE d => d

/-- Model of `os.listdir(".")` on the current-directory tree, in the
model's enumeration order. -/
def listdirModel : Tree → List RootEntry
  | .node files subdirs => files.map RootEntry.fileE ++ subdirs.map (fun d => RootEntry.dirE d.name)

/-- Pass 2 of `combine_script.py` for one root-level entry: skip the
output file by name; bundle a file that is in `specific_includes` or
passes `isfile`+`should_process`; a *directory* whose name is listed in
`specific_includes` reaches `open`, which raises `IsADirectoryError`,
caught and reported. -/
def rootEntryEventsCS : RootEntry → List Event
  | .fileE f =>
      if f.name == output_file then []
      else if specific_includesCS.contains f.name || should_process [f.name] then
        [processUnsized [f.name] f]
      else []
  | .dirE d =>
      if d == output_file then []
      else if specific_includesCS.contains d then [.readError [d] "IsADirectoryError"]
      else []

/-- Pass 2 of `combine_script.py`: every `os.listdir(".")` entry in
order. -/
def rootPassCS (t : Tree) : List Event :=
  (listdirModel t).flatMap rootEntryEventsCS

/-- The per-file outcomes of a `combine_script.py` run over the
current-directory tree `t`, in the order they are written: the recursive
pass over `root_dirs` followed by the root-level pass. -/
def eventsCS (t : Tree) : List Event :=
  walkPassCS t ++ rootPassCS t

/-! ### `bundle_widget_context.py` -/

/-- List `TARGET_FILES` of `bundle_widget_context.py` (raw Windows-style
relative paths, exactly as in the source). -/
def TARGET_FILES : List String :=
  ["lib\\core\\services\\widget_update_service.dart",
   "ios\\VibeWidget\\VibeWidget.swift",
   "ios\\VibeWidget\\PlayVibeIntent.swift",
   "ios\\Runner\\Info.plist",
   "ios\\Runner\\AudioManager.swift",
   "android\\app\\src\\main\\res\\layout\\nock_widget_layout.xml",
   "android\\app\\src\\main\\res\\layout\\squad_widget_layout.xml",
   "android\\app\\src\\main\\kotlin\\com\\nock\\nock\\NockWidgetProvider.kt",
   "android\\app\\src\\main\\kotlin\\com\\nock\\nock\\NockAudioService.kt",
   "android\\app\\src\\main\\AndroidManifest.xml",
   "android\\app\\build.gradle",
   "ios\\Podfile"]

/-- What the filesystem holds at one listed relative path (resolved
against `ROOT_DIR`): nothing, or a file with bytes and an optional read
failure. -/
inductive WStat where
  | absent
  | present (bytes : List Nat) (ioError : Option String)
deriving DecidableEq, Repr

/-- Per-file outcome of `bundle_widget_context.py`. -/
inductive WEvent where
  | added (relPath : String) (content : List Char)
  | readError (relPath : String) (cause : String)
  | notFound (relPath : String)
deriving DecidableEq, Repr

/-- The path a widget-bundle event reports. -/
def WEvent.wpath : WEvent → String
  | .added p _ => p
  | .readError p _ => p
  | .notFound p => p

/-- The loop body of `bundle_widget_context.py` for one listed path:
`os.path.exists` gate, then a guarded read. -/
def processBW (fs : String → WStat) (p : String) : WEvent :=
  match fs p with
  | .absent => .notFound p
  | .present _ (some e) => .readError p e
  | .present bytes none => .added p (utf8DecodeIgnore bytes)

/-- The per-file outcomes of a `bundle_widget_context.py` run: exactly
the listed paths, in list order. -/
def eventsBW (fs : String → WStat) : List WEvent :=
  TARGET_FILES.map (processBW fs)

/-- The paths of the entries actually written to the widget bundle, in
output order. -/
def addedPathsBW (evs : List WEvent) : List String :=
  evs.filterMap (fun ev => match ev with | .added p _ => some p | _ => none)

/-- Does the filesystem hold a readable file at a listed widget path? -/
def readableBW (fs : String → WStat) (p : String) : Bool :=
  match fs p with
  | .present _ none => true
  | _ => false

/-! ## Concrete filesystems used to instantiate the theorems -/

/-- A small readable Dart file. -/
def fA : FileRec := ⟨"a.dart", 5, [104], none⟩

/-- A root with `a.dart` at top level and inside a subdirectory `src`. -/
def tA : Tree := .node [fA] [.mk "src" (.node [fA] [])]

/-- A matching file of exactly 1 MiB. -/
def fBig : FileRec := ⟨"b.dart", 1048576, [104, 105], none⟩

/-- A matching file of more than 1 MiB. -/
def fHuge : FileRec := ⟨"h.dart", 1048577, [104, 105], none⟩

/-- A root holding one ceiling-sized and one oversized file. -/
def tBig : Tree := .node [fBig, fHuge] []

/-- A matching file whose `open` raises a permission error. -/
def fErr : FileRec := ⟨"c.dart", 3, [104], some "PermissionError"⟩

/-- A root holding one unreadable and one readable matching file. -/
def tErr : Tree := .node [fErr, fA] []

/-- A small readable XML file. -/
def fXml : FileRec := ⟨"a.xml", 1, [97], none⟩

/-- A root holding just `a.xml`. -/
def tXml : Tree := .node [fXml] []

/-- A dot-named file whose extension is in the inclusion set of
`combine_code.py`. -/
def fDotJson : FileRec := ⟨".env.json", 4, [104], none⟩

/-- A root holding just `.env.json`. -/
def tDotJson : Tree := .node [fDotJson] []

/-- A readable file whose bytes start with the undecodable byte 0xFF. -/
def fBadBytes : FileRec := ⟨"a.md", 2, [255, 65], none⟩

/-- A root holding just that file. -/
def tBadBytes : Tree := .node [fBadBytes] []

/-- A dot-named XML file (matching for `combine_native.py`). -/
def fDotXml : FileRec := ⟨".cfg.xml", 1, [97], none⟩

/-- A root holding just `.cfg.xml`. -/
def tDotXml : Tree := .node [fDotXml] []

/-- A Dart file inside a dot-named directory below `lib`. -/
def fDartCS : FileRec := ⟨"x.dart", 1, [97], none⟩

/-- A current directory whose `lib` contains the dot-named directory
`.foo` holding `x.dart`. -/
def tDotDirCS : Tree := .node [] [.mk "lib" (.node [] [.mk ".foo" (.node [fDartCS] [])])]

/-- A widget filesystem with no file present. -/
def fsAbsent : String → WStat := fun _ => .absent

/-- A widget filesystem where only `ios\Podfile` exists and is
readable. -/
def fsOne : String → WStat := fun p =>
  if p = "ios\\Podfile" then .present [97] none else .absent

/-- A widget filesystem where only `ios\Podfile` exists and reading it
fails. -/
def fsErrW : String → WStat := fun p =>
  if p = "ios\\Podfile" then .present [97] (some "PermissionError") else .absent

/-! ## General lemmas about the model -/

theorem nodupB_iff (l : List String) : nodupB l = true ↔ l.Nodup := by
  induction l with
  | nil => simp [nodupB]
  | cons x xs ih =>
      simp [nodupB, List.nodup_cons, ih]

theorem processSized_path (q : List String) (f : FileRec) : (processSized q f).path = q := by
  unfold processSized
  split
  · rfl
  · split <;> rfl

theorem processUnsized_path (q : List String) (f : FileRec) : (processUnsized q f).path = q := by
  unfold processUnsized
  split <;> rfl

mutual
/-- Every file reached by the pruned walk lies strictly below the start
directory, its path ends in its own filename, and every intermediate
directory segment was accepted by the pruning predicate (abstracted by
`good`). -/
theorem walkG_mem {keep : List String → String → Bool} (good : String → Bool)
    (hkeep : ∀ cur d, keep cur d = true → good d = true) (cur : List String) (t : Tree)
    {p : List String} {f : FileRec} (h : (p, f) ∈ walkG keep cur t) :
    ∃ dirs, p = cur ++ dirs ++ [f.name] ∧ ∀ seg ∈ dirs, good seg = true := by
  cases t with
  | node files subdirs =>
      rw [walkG] at h
      rcases List.mem_append.mp h with hf | hd
      · rcases List.mem_map.mp hf with ⟨g, _, hEq⟩
        obtain ⟨hp, hg⟩ := Prod.mk.injEq .. ▸ hEq
        exact ⟨[], by simp [← hp, hg], by simp⟩
      · rcases walkDirsG_mem good hkeep cur subdirs hd with ⟨d, dirs, hp, hgd, hdirs, _⟩
        refine ⟨d :: dirs, by simpa using hp, ?_⟩
        intro seg hseg
        rcases List.mem_cons.mp hseg with rfl | hseg
        · exact hgd
        · exact hdirs seg hseg

/-- Companion of `walkG_mem` for the subdirectory half: additionally,
the first segment below `cur` is the name of one of the listed
subdirectory entries. -/
theorem walkDirsG_mem {keep : List String → String → Bool} (good : String → Bool)
    (hkeep : ∀ cur d, keep cur d = true → good d = true) (cur : List String) (ds : List DirEnt)
    {p : List String} {f : FileRec} (h : (p, f) ∈ walkDirsG keep cur ds) :
    ∃ d dirs, p = cur ++ (d :: dirs) ++ [f.name] ∧ good d = true ∧
      (∀ seg ∈ dirs, good seg = true) ∧ d ∈ ds.map DirEnt.name := by
  cases ds with
  | nil => simp [walkDirsG] at h
  | cons e rest =>
      cases e with
      | mk d0 sub =>
          rw [walkDirsG] at h
          rcases List.mem_append.mp h with hl | hr
          · by_cases hk : keep cur d0 = true
            · rw [if_pos hk] at hl
              rcases walkG_mem good hkeep (cur ++ [d0]) sub hl with ⟨dirs, hp, hdirs⟩
              exact ⟨d0, dirs, by simpa using hp, hkeep cur d0 hk, hdirs, by simp [DirEnt.name]⟩
            · rw [if_neg hk] at hl
              simp at hl
          · rcases walkDirsG_mem good hkeep cur rest hr with ⟨d, dirs, hp, hgd, hdirs, hmem⟩
            exact ⟨d, dirs, hp, hgd, hdirs, by simp [hmem]⟩
end

/-- Shape-only corollary of `walkG_mem` (with the trivial predicate). -/
theorem walkG_shape {keep : List String → String → Bool} (cur : List String) (t : Tree)
    {p : List String} {f : FileRec} (h : (p, f) ∈ walkG keep cur t) :
    ∃ dirs, p = cur ++ dirs ++ [f.name] :=
  (walkG_mem (fun _ => true) (fun _ _ _ => rfl) cur t h).imp (fun _ hp => hp.1)

/-- Shape-only corollary of `walkDirsG_mem`. -/
theorem walkDirsG_shape {keep : List String → String → Bool} (cur : List String) (ds : List DirEnt)
    {p : List String} {f : FileRec} (h : (p, f) ∈ walkDirsG keep cur ds) :
    ∃ d dirs, p = cur ++ (d :: dirs) ++ [f.name] := by
  rcases walkDirsG_mem (fun _ => true) (fun _ _ _ => rfl) cur ds h with ⟨d, dirs, hp, _⟩
  exact ⟨d, dirs, hp⟩

theorem dirsWF_mem {ds : List DirEnt} (h : dirsWF ds = true) {de : DirEnt} (hmem : de ∈ ds) :
    treeWF de.sub = true := by
  induction ds with
  | nil => simp at hmem
  | cons e rest ih =>
      cases e with
      | mk n sub =>
          rw [dirsWF, Bool.and_eq_true] at h
          rcases List.mem_cons.mp hmem with rfl | hmem
          · exact h.1
          · exact ih h.2 hmem

mutual
/-- On a well-formed tree, the pruned walk reaches pairwise-distinct
file paths: no file is ever enumerated twice. -/
theorem walkG_nodup (keep : List String → String → Bool) (cur : List String) (t : Tree)
    (hwf : treeWF t = true) : ((walkG keep cur t).map Prod.fst).Nodup := by
  cases t with
  | node files subdirs =>
      rw [treeWF, Bool.and_eq_true] at hwf
      obtain ⟨hnames, hsubs⟩ := hwf
      have hnames' := (nodupB_iff _).mp hnames
      rw [walkG, List.map_append]
      refine List.Nodup.append ?_ (walkDirsG_nodup keep cur subdirs hsubs hnames'.of_append_right) ?_
      · rw [List.map_map]
        have hmm : files.map (Prod.fst ∘ fun f => (cur ++ [f.name], f)) =
            (files.map FileRec.name).map (fun n => cur ++ [n]) := by
          rw [List.map_map]; rfl
        rw [hmm]
        refine List.Nodup.map ?_ hnames'.of_append_left
        intro a b hab
        simpa using List.append_cancel_left hab
      · intro p hp hq
        rcases List.mem_map.mp hp with ⟨⟨p1, f1⟩, hmem1, hp1⟩
        rcases List.mem_map.mp hmem1 with ⟨g, _, hgeq⟩
        rcases List.mem_map.mp hq with ⟨⟨p2, f2⟩, hmem2, hp2⟩
        rcases walkDirsG_shape cur subdirs hmem2 with ⟨d, dirs, hshape⟩
        have hlen : p.length = cur.length + 1 := by
          have : p1 = cur ++ [g.name] := by
            have := congrArg Prod.fst hgeq
            simpa using this.symm
          simp [← hp1, this]
        have hlen2 : p.length = cur.length + dirs.length + 2 := by
          simp [← hp2, hshape, List.length_append]
          omega
        omega

/-- Companion of `walkG_nodup` for the subdirectory half, given distinct
subdirectory names. -/
theorem walkDirsG_nodup (keep : List String → String → Bool) (cur : List String)
    (ds : List DirEnt) (hwf : dirsWF ds = true) (hnames : (ds.map DirEnt.name).Nodup) :
    ((walkDirsG keep cur ds).map Prod.fst).Nodup := by
  cases ds with
  | nil => simp [walkDirsG]
  | cons e rest =>
      cases e with
      | mk d0 sub =>
          rw [dirsWF, Bool.and_eq_true] at hwf
          have hcons : (d0 :: rest.map DirEnt.name).Nodup := by
            simpa only [List.map_cons, DirEnt.name] using hnames
          obtain ⟨hn0, hnrest⟩ := List.nodup_cons.mp hcons
          rw [walkDirsG, List.map_append]
          refine List.Nodup.append ?_ (walkDirsG_nodup keep cur rest hwf.2 hnrest) ?_
          · by_cases hk : keep cur d0 = true
            · rw [if_pos hk]
              exact walkG_nodup keep (cur ++ [d0]) sub hwf.1
            · rw [if_neg hk]
              simp
          · intro p hp hq
            by_cases hk : keep cur d0 = true
            · rw [if_pos hk] at hp
              rcases List.mem_map.mp hp with ⟨⟨p1, f1⟩, hmem1, hp1⟩
              rcases walkG_shape (cur ++ [d0]) sub hmem1 with ⟨dirs1, hshape1⟩
              rcases List.mem_map.mp hq with ⟨⟨p2, f2⟩, hmem2, hp2⟩
              rcases walkDirsG_shape cur rest hmem2 with ⟨d, dirs2, hshape2⟩
              have hdmem : d ∈ rest.map DirEnt.name := by
                rcases walkDirsG_mem (fun _ => true) (fun _ _ _ => rfl) cur rest hmem2
                  with ⟨d', dirs', hp', _, _, hdm'⟩
                have h12 : cur ++ ((d' :: dirs') ++ [f2.name]) = cur ++ ((d :: dirs2) ++ [f2.name]) := by
                  have := hp'.symm.trans hshape2
                  simpa [List.append_assoc] using this
                have h13 := List.append_cancel_right (List.append_cancel_left h12)
                injection h13 with h14 _
                exact h14 ▸ hdm'
              have heqp : p1 = p2 := hp1.trans hp2.symm
              have h12 : cur ++ ((d0 :: dirs1) ++ [f1.name]) = cur ++ ((d :: dirs2) ++ [f2.name]) := by
                have := heqp
                rw [hshape1, hshape2] at this
                simpa [List.append_assoc] using this
              have h13 := List.append_cancel_left h12
              have hd0d : d0 = d := by
                have hhead := congrArg (fun l => l.headI) h13
                simpa using hhead
              exact hn0 (hd0d ▸ hdmem)
            · rw [if_neg hk] at hp
              simp at hp
end

theorem map_path_processSized (g : List String → List String) (L : List (List String × FileRec)) :
    (L.map (fun pf => processSized (g pf.1) pf.2)).map Event.path = L.map (fun pf => g pf.1) := by
  induction L with
  | nil => rfl
  | cons a l ih => simp [processSized_path, ih]

theorem map_path_processUnsized (L : List (List String × FileRec)) :
    (L.map (fun pf => processUnsized pf.1 pf.2)).map Event.path = L.map Prod.fst := by
  induction L with
  | nil => rfl
  | cons a l ih => simp [processUnsized_path, ih]

/-- Every `combine_code.py` candidate path starts with the root
segments, so the relative path determines the absolute one. -/
theorem candidateCC_prefix {t : Tree} {p : List String} {f : FileRec}
    (h : (p, f) ∈ candidatesCC t) : p = ROOT_PARTS ++ relPathFromRoot p := by
  have hwalk : (p, f) ∈ walkG keepCC ROOT_PARTS t := (List.mem_filter.mp h).1
  rcases walkG_shape ROOT_PARTS t hwalk with ⟨dirs, hshape⟩
  rw [hshape, relPathFromRoot]
  simp [List.drop_left]

/-- The paths reported by the events of a `combine_code.py` run, as
relative paths of the candidates. -/
theorem eventsCC_paths (t : Tree) :
    (eventsCC t).map Event.path = (candidatesCC t).map (fun pf => relPathFromRoot pf.1) := by
  rw [eventsCC, map_path_processSized]

/-- On a well-formed root tree, the entries of a `combine_code.py` run
have pairwise-distinct paths. -/
theorem eventsCC_nodup (t : Tree) (hwf : treeWF t = true) :
    ((eventsCC t).map Event.path).Nodup := by
  rw [eventsCC_paths]
  have hwalk : ((walkG keepCC ROOT_PARTS t).map Prod.fst).Nodup := walkG_nodup _ _ _ hwf
  have hcand : ((candidatesCC t).map Prod.fst).Nodup :=
    List.Nodup.sublist (List.Sublist.map _ (List.filter_sublist _)) hwalk
  have hmm : (candidatesCC t).map (fun pf => relPathFromRoot pf.1) =
      ((candidatesCC t).map Prod.fst).map relPathFromRoot := by
    rw [List.map_map]; rfl
  rw [hmm]
  refine List.Nodup.map_on ?_ hcand
  intro x hx y hy hxy
  rcases List.mem_map.mp hx with ⟨⟨px, fx⟩, hmx, hfx⟩
  rcases List.mem_map.mp hy with ⟨⟨py, fy⟩, hmy, hfy⟩
  have hpx : px = x := hfx
  have hpy : py = y := hfy
  have hx' : x = ROOT_PARTS ++ relPathFromRoot x := hpx ▸ candidateCC_prefix hmx
  have hy' : y = ROOT_PARTS ++ relPathFromRoot y := hpy ▸ candidateCC_prefix hmy
  rw [hx', hy', hxy]

/-- Dropping an invalid lead byte: a byte at which no UTF-8 sequence can
start contributes nothing to the decoded text — it is ignored, not
replaced by any placeholder, and never raises. -/
theorem utf8DecodeIgnore_invalid (b : Nat) (bs : List Nat) (h : invalidStarter b = true) :
    utf8DecodeIgnore (b :: bs) = utf8DecodeIgnore bs := by
  rw [invalidStarter] at h
  simp only [Bool.and_eq_true, Bool.not_eq_true'] at h
  obtain ⟨⟨⟨h1, h2⟩, h3⟩, h4⟩ := h
  have ht2 : twoByteOK b bs = false := by rw [twoByteOK.eq_def, h2, Bool.false_and]
  have ht3 : threeByteOK b bs = false := by rw [threeByteOK.eq_def, h3, Bool.false_and]
  have ht4 : fourByteOK b bs = false := by rw [fourByteOK.eq_def, h4, Bool.false_and]
  rw [utf8DecodeIgnore, utf8DecodeIgnore, List.length_cons, utf8DecodeIgnoreFuel,
    if_neg (of_decide_eq_false h1), if_neg (ne_true_of_eq_false ht2),
    if_neg (ne_true_of_eq_false ht3), if_neg (ne_true_of_eq_false ht4)]

/-- Structure of a pass-1 event of `combine_script.py`: it comes from a
walked file of an existing root directory that passed
`should_process`. -/
theorem rootDirPassCS_mem {t : Tree} {rd : String} {ev : Event} (h : ev ∈ rootDirPassCS t rd) :
    ∃ p f sub, findDir t rd = some sub ∧ (p, f) ∈ walkG keepCS [rd] sub ∧
      should_process p = true ∧ ev = processUnsized p f := by
  unfold rootDirPassCS at h
  cases hfd : findDir t rd with
  | none => rw [hfd] at h; simp at h
  | some sub =>
      rw [hfd] at h
      rcases List.mem_map.mp h with ⟨⟨p1, f1⟩, hm1, hev⟩
      have hm1' := List.mem_filter.mp hm1
      exact ⟨p1, f1, sub, rfl, hm1'.1, hm1'.2, hev.symm⟩

/-- Every pass-1 event path of `combine_script.py` starts with the root
directory's name, continues through directories that survived the
pruning (none in `exclude_dirs`), and ends in the file's name. -/
theorem rootDirPassCS_path {t : Tree} {rd : String} {ev : Event} (h : ev ∈ rootDirPassCS t rd) :
    ∃ dirs fname, ev.path = rd :: (dirs ++ [fname]) ∧
      ∀ seg ∈ dirs, exclude_dirsCS.contains seg = false := by
  rcases rootDirPassCS_mem h with ⟨p, f, sub, _, hwalk, _, hev⟩
  have hkeep : ∀ cur d, keepCS cur d = true → (!(exclude_dirsCS.contains d)) = true := by
    intro cur d hk
    exact hk
  rcases walkG_mem _ hkeep [rd] sub hwalk with ⟨dirs, hshape, hdirs⟩
  refine ⟨dirs, f.name, ?_, ?_⟩
  · rw [hev, processUnsized_path, hshape]
    simp
  · intro seg hseg
    have := hdirs seg hseg
    simpa using this

/-- `findDir` returns a well-formed subtree of a well-formed tree. -/
theorem findDir_wf {t : Tree} {n : String} {sub : Tree} (hwf : treeWF t = true)
    (h : findDir t n = some sub) : treeWF sub = true := by
  cases t with
  | node files subdirs =>
      have h' : (match subdirs.find? (fun d => d.name == n) with
          | some d => some d.sub
          | none => none) = some sub := h
      cases hf : subdirs.find? (fun d => d.name == n) with
      | none => rw [hf] at h'; simp at h'
      | some de =>
          rw [hf] at h'
          have hmem := List.mem_of_find?_eq_some hf
          rw [treeWF, Bool.and_eq_true] at hwf
          have := dirsWF_mem hwf.2 hmem
          have hde : de.sub = sub := by simpa using h'
          exact hde ▸ this

/-- On a well-formed tree, one pass-1 block of `combine_script.py` has
pairwise-distinct event paths. -/
theorem rootDirPassCS_nodup (t : Tree) (hwf : treeWF t = true) (rd : String) :
    ((rootDirPassCS t rd).map Event.path).Nodup := by
  unfold rootDirPassCS
  cases hfd : findDir t rd with
  | none => simp
  | some sub =>
      have hsub : treeWF sub = true := findDir_wf hwf hfd
      have hwalk := walkG_nodup keepCS [rd] sub hsub
      have hfiltered :
          (((walkG keepCS [rd] sub).filter (fun pf => should_process pf.1)).map Prod.fst).Nodup :=
        List.Nodup.sublist (List.Sublist.map _ (List.filter_sublist _)) hwalk
      rw [map_path_processUnsized]
      exact hfiltered

/-- Pass-1 blocks of different root directories touch disjoint paths
(they differ in the leading segment). -/
theorem rootDirPassCS_disjoint (t : Tree) {rd1 rd2 : String} (hne : rd1 ≠ rd2) :
    ((rootDirPassCS t rd1).map Event.path).Disjoint ((rootDirPassCS t rd2).map Event.path) := by
  intro p hp1 hp2
  rcases List.mem_map.mp hp1 with ⟨ev1, hm1, hev1⟩
  rcases rootDirPassCS_path hm1 with ⟨dirs1, fn1, he1, _⟩
  rcases List.mem_map.mp hp2 with ⟨ev2, hm2, hev2⟩
  rcases rootDirPassCS_path hm2 with ⟨dirs2, fn2, he2, _⟩
  have : rd1 :: (dirs1 ++ [fn1]) = rd2 :: (dirs2 ++ [fn2]) := by
    rw [← he1, ← he2, hev1, hev2]
  injection this with h1 _
  exact hne h1

/-- On a well-formed tree, pass 1 of `combine_script.py` has
pairwise-distinct event paths. -/
theorem walkPassCS_nodup (t : Tree) (hwf : treeWF t = true) :
    ((walkPassCS t).map Event.path).Nodup := by
  have hlib := rootDirPassCS_nodup t hwf "lib"
  have hand := rootDirPassCS_nodup t hwf "android"
  have hios := rootDirPassCS_nodup t hwf "ios"
  have h12 := rootDirPassCS_disjoint t (show "lib" ≠ "android" by decide)
  have h13 := rootDirPassCS_disjoint t (show "lib" ≠ "ios" by decide)
  have h23 := rootDirPassCS_disjoint t (show "android" ≠ "ios" by decide)
  have hexp : walkPassCS t =
      rootDirPassCS t "lib" ++ (rootDirPassCS t "android" ++ (rootDirPassCS t "ios" ++ [])) := by
    rw [walkPassCS, root_dirs]
    rfl
  rw [hexp]
  simp only [List.append_nil, List.map_append]
  refine List.Nodup.append hlib (List.Nodup.append hand hios h23) ?_
  intro p hp hq
  rcases List.mem_append.mp hq with hq | hq
  · exact h12 hp hq
  · exact h13 hp hq

/-- Every pass-1 event path has at least two segments. -/
theorem walkPassCS_long {t : Tree} {ev : Event} (h : ev ∈ walkPassCS t) :
    2 ≤ ev.path.length := by
  rw [walkPassCS] at h
  rcases List.mem_flatMap.mp h with ⟨rd, _, hmem⟩
  rcases rootDirPassCS_path hmem with ⟨dirs, fn, he, _⟩
  rw [he]
  simp

/-- A pass-2 event reports the root entry's own name as its
single-segment path. -/
theorem rootEntryEventsCS_path {ent : RootEntry} {ev : Event} (h : ev ∈ rootEntryEventsCS ent) :
    ev.path = [ent.entName] := by
  cases ent with
  | fileE f =>
      rw [rootEntryEventsCS] at h
      split at h
      · simp at h
      · split at h
        · rcases List.mem_singleton.mp h with rfl
          rw [processUnsized_path, RootEntry.entName]
        · simp at h
  | dirE d =>
      rw [rootEntryEventsCS] at h
      split at h
      · simp at h
      · split at h
        · rcases List.mem_singleton.mp h with rfl
          rw [Event.path, RootEntry.entName]
        · simp at h

/-- One root entry contributes at most one event, reporting the entry's
name. -/
theorem rootEntryEventsCS_sublist (ent : RootEntry) :
    ((rootEntryEventsCS ent).map Event.path).Sublist [[ent.entName]] := by
  cases hev : rootEntryEventsCS ent with
  | nil => simp
  | cons e rest =>
      have hpe : e.path = [ent.entName] := rootEntryEventsCS_path (by rw [hev]; simp)
      have hrest : rest = [] := by
        cases ent with
        | fileE f =>
            rw [rootEntryEventsCS] at hev
            split at hev
            · simp at hev
            · split at hev
              · exact (List.cons.injEq .. ▸ hev).2.symm
              · simp at hev
        | dirE d =>
            rw [rootEntryEventsCS] at hev
            split at hev
            · simp at hev
            · split at hev
              · exact (List.cons.injEq .. ▸ hev).2.symm
              · simp at hev
      rw [hrest]
      simp [hpe]

/-- Pass-2 event paths form a sublist of the singleton paths of the
`os.listdir(".")` entries. -/
theorem rootPassCS_sublist (l : List RootEntry) :
    ((l.flatMap rootEntryEventsCS).map Event.path).Sublist (l.map (fun e => [e.entName])) := by
  induction l with
  | nil => simp
  | cons a l ih =>
      rw [List.flatMap_cons, List.map_append, List.map_cons]
      exact List.Sublist.append (rootEntryEventsCS_sublist a) ih

/-- On a well-formed tree the names enumerated by `os.listdir(".")` are
pairwise distinct. -/
theorem listdir_names_nodup (t : Tree) (hwf : treeWF t = true) :
    ((listdirModel t).map RootEntry.entName).Nodup := by
  cases t with
  | node files subdirs =>
      rw [treeWF, Bool.and_eq_true] at hwf
      have := (nodupB_iff _).mp hwf.1
      have hmm : (listdirModel (Tree.node files subdirs)).map RootEntry.entName =
          files.map FileRec.name ++ subdirs.map DirEnt.name := by
        rw [listdirModel, List.map_append, List.map_map, List.map_map]
        rfl
      rw [hmm]
      exact this

/-- On a well-formed tree, pass 2 of `combine_script.py` has
pairwise-distinct event paths. -/
theorem rootPassCS_nodup (t : Tree) (hwf : treeWF t = true) :
    ((rootPassCS t).map Event.path).Nodup := by
  have hnames := listdir_names_nodup t hwf
  have hsing : ((listdirModel t).map (fun e => [e.entName])).Nodup := by
    have hmm : (listdirModel t).map (fun e => [e.entName]) =
        ((listdirModel t).map RootEntry.entName).map (fun n => [n]) := by
      rw [List.map_map]; rfl
    rw [hmm]
    refine List.Nodup.map ?_ hnames
    intro a b hab
    simpa using hab
  exact List.Nodup.sublist (rootPassCS_sublist _) hsing

/-- Every pass-2 event path has exactly one segment. -/
theorem rootPassCS_short {t : Tree} {ev : Event} (h : ev ∈ rootPassCS t) :
    ev.path.length = 1 := by
  rw [rootPassCS] at h
  rcases List.mem_flatMap.mp h with ⟨ent, _, hmem⟩
  rw [rootEntryEventsCS_path hmem]
  rfl

/-- On a well-formed current-directory tree, the entries of a
`combine_script.py` run have pairwise-distinct paths: the two passes
never write the same file twice. -/
theorem eventsCS_nodup (t : Tree) (hwf : treeWF t = true) :
    ((eventsCS t).map Event.path).Nodup := by
  rw [eventsCS, List.map_append]
  refine List.Nodup.append (walkPassCS_nodup t hwf) (rootPassCS_nodup t hwf) ?_
  intro p hp hq
  rcases List.mem_map.mp hp with ⟨ev1, hm1, hev1⟩
  rcases List.mem_map.mp hq with ⟨ev2, hm2, hev2⟩
  have hl1 : 2 ≤ p.length := hev1 ▸ walkPassCS_long hm1
  have hl2 : p.length = 1 := hev2 ▸ rootPassCS_short hm2
  omega

/-- The widget bundle writes exactly the listed paths that exist and are
readable, in list order. -/
theorem addedPathsBW_filter (fs : String → WStat) (l : List String) :
    addedPathsBW (l.map (processBW fs)) = l.filter (readableBW fs) := by
  induction l with
  | nil => rfl
  | cons a l ih =>
      cases hfa : fs a with
      | absent =>
          simp [addedPathsBW, processBW, readableBW, hfa, List.filter_cons] at ih ⊢
          exact ih
      | present bytes ioe =>
          cases ioe with
          | none =>
              simp [addedPathsBW, processBW, readableBW, hfa, List.filter_cons] at ih ⊢
              exact ih
          | some e =>
              simp [addedPathsBW, processBW, readableBW, hfa, List.filter_cons] at ih ⊢
              exact ih

theorem is_excludedCC_false {parts : List String} (h : is_excludedCC parts = false) :
    ∀ part ∈ parts, EXCLUDE_DIRS_CC.contains part = false ∧ startsWithDot part = false := by
  rw [is_excludedCC, List.any_eq_false] at h
  intro part hp
  have := h part hp
  simpa using this

theorem is_excludedCN_false {parts : List String} (h : is_excludedCN parts = false) :
    ∀ part ∈ parts, EXCLUDE_DIRS_CN.contains part = false ∧ startsWithDot part = false := by
  rw [is_excludedCN, List.any_eq_false] at h
  intro part hp
  have := h part hp
  simpa using this

theorem keepCC_good (cur : List String) (d : String) (hk : keepCC cur d = true) :
    (!(EXCLUDE_DIRS_CC.contains d) && !(startsWithDot d)) = true := by
  rw [keepCC, Bool.and_eq_true] at hk
  have hex : is_excludedCC (cur ++ [d]) = false := by
    have := hk.1
    rwa [Bool.not_eq_true'] at this
  have hd := is_excludedCC_false hex d (by simp)
  rw [hd.1, hd.2]
  rfl

theorem keepCN_good (cur : List String) (d : String) (hk : keepCN cur d = true) :
    (!(EXCLUDE_DIRS_CN.contains d) && !(startsWithDot d)) = true := by
  rw [keepCN, Bool.not_eq_true'] at hk
  have hd := is_excludedCN_false hk d (by simp)
  rw [hd.1, hd.2]
  rfl

theorem processBW_wpath (fs : String → WStat) (p : String) : (processBW fs p).wpath = p := by
  rw [processBW.eq_def]
  cases hfa : fs p with
  | absent => rfl
  | present bytes ioe => cases ioe <;> rfl

theorem map_path_processSized_id (L : List (List String × FileRec)) :
    (L.map (fun pf => processSized pf.1 pf.2)).map Event.path = L.map Prod.fst := by
  induction L with
  | nil => rfl
  | cons a l ih => simp [processSized_path, ih]

theorem processSized_big {q : List String} {f : FileRec} (h : 1048576 < f.size) :
    processSized q f = .tooLarge q := by
  rw [processSized, if_pos]
  norm_num
  omega

theorem processSized_ok {q : List String} {f : FileRec} (h1 : ¬ f.size > 1024 * 1024)
    (h2 : f.ioError = none) :
    processSized q f = .added q (utf8DecodeIgnore f.bytes) := by
  rw [processSized, if_neg h1, h2]

theorem processSized_err {q : List String} {f : FileRec} {e : String}
    (h1 : ¬ f.size > 1024 * 1024) (h2 : f.ioError = some e) :
    processSized q f = .readError q e := by
  rw [processSized, if_neg h1, h2]

/-- The relative path of a `combine_code.py` candidate is its directory
chain plus its filename. -/
theorem candidateCC_rel {t : Tree} {p : List String} {f : FileRec}
    (h : (p, f) ∈ candidatesCC t) :
    ∃ dirs, relPathFromRoot p = dirs ++ [f.name] ∧
      ∀ seg ∈ dirs, (!(EXCLUDE_DIRS_CC.contains seg) && !(startsWithDot seg)) = true := by
  have hwalk : (p, f) ∈ walkG keepCC ROOT_PARTS t := (List.mem_filter.mp h).1
  rcases walkG_mem _ keepCC_good ROOT_PARTS t hwalk with ⟨dirs, hshape, hdirs⟩
  refine ⟨dirs, ?_, hdirs⟩
  rw [hshape, relPathFromRoot, List.append_assoc]
  exact List.drop_left ROOT_PARTS _

/-- A bundle entry written by pass 2 of `combine_script.py` is a
root-level file whose name is not the output file's. -/
theorem rootEntryEventsCS_added {ent : RootEntry} {p : List String} {c : List Char}
    (h : Event.added p c ∈ rootEntryEventsCS ent) :
    p = [ent.entName] ∧ (ent.entName == output_file) = false := by
  have hp : p = [ent.entName] := rootEntryEventsCS_path h
  refine ⟨hp, ?_⟩
  cases ent with
  | fileE f =>
      rw [rootEntryEventsCS] at h
      split at h
      · simp at h
      · rename_i hout
        rw [RootEntry.entName]
        simpa using hout
  | dirE d =>
      rw [rootEntryEventsCS] at h
      split at h
      · simp at h
      · rename_i hout
        rw [RootEntry.entName]
        simpa using hout

/-! ## The claims -/

/-- C1: a subdirectory whose name is in the exclusion set is pruned
before descent — the walk of `combine_code.py` never enumerates a file
below an excluded directory name, so no event (in `combine_code.py` or
`combine_script.py`) reports a path with an excluded directory
segment. -/
theorem claim_C1 (t : Tree) :
    (∀ p f, (p, f) ∈ walkG keepCC ROOT_PARTS t →
        ∀ seg ∈ (relPathFromRoot p).dropLast, EXCLUDE_DIRS_CC.contains seg = false) ∧
    (∀ ev, ev ∈ eventsCC t → ∀ seg ∈ ev.path.dropLast, EXCLUDE_DIRS_CC.contains seg = false) ∧
    (∀ ev, ev ∈ eventsCS t → ∀ seg ∈ ev.path.dropLast, exclude_dirsCS.contains seg = false) := by
  have key : ∀ p f, (p, f) ∈ walkG keepCC ROOT_PARTS t →
      ∀ seg ∈ (relPathFromRoot p).dropLast, EXCLUDE_DIRS_CC.contains seg = false := by
    intro p f hmem seg hseg
    rcases walkG_mem _ keepCC_good ROOT_PARTS t hmem with ⟨dirs, hshape, hdirs⟩
    have hrel : relPathFromRoot p = dirs ++ [f.name] := by
      rw [hshape, relPathFromRoot, List.append_assoc]
      exact List.drop_left ROOT_PARTS _
    rw [hrel, List.dropLast_concat] at hseg
    have := hdirs seg hseg
    simp only [Bool.and_eq_true, Bool.not_eq_true'] at this
    exact this.1
  refine ⟨key, ?_, ?_⟩
  · intro ev hev seg hseg
    rcases List.mem_map.mp hev with ⟨⟨p, f⟩, hmem, hev'⟩
    have hwalk : (p, f) ∈ walkG keepCC ROOT_PARTS t := (List.mem_filter.mp hmem).1
    have hpath : ev.path = relPathFromRoot p := by rw [← hev', processSized_path]
    rw [hpath] at hseg
    exact key p f hwalk seg hseg
  · intro ev hev seg hseg
    rw [eventsCS] at hev
    rcases List.mem_append.mp hev with hw | hr
    · rw [walkPassCS] at hw
      rcases List.mem_flatMap.mp hw with ⟨rd, hrd, hmem⟩
      rcases rootDirPassCS_path hmem with ⟨dirs, fn, hpath, hdirs⟩
      rw [hpath] at hseg
      have hdl : (rd :: (dirs ++ [fn])).dropLast = rd :: dirs := by
        rw [show rd :: (dirs ++ [fn]) = (rd :: dirs) ++ [fn] by simp, List.dropLast_concat]
      rw [hdl] at hseg
      rcases List.mem_cons.mp hseg with rfl | hseg2
      · have : seg = "lib" ∨ seg = "android" ∨ seg = "ios" := by
          simpa [root_dirs] using hrd
        rcases this with rfl | rfl | rfl <;> decide
      · exact hdirs seg hseg2
    · rw [rootPassCS] at hr
      rcases List.mem_flatMap.mp hr with ⟨ent, _, hmem⟩
      rw [rootEntryEventsCS_path hmem] at hseg
      simp at hseg

/-- Witness for C1 at a concrete tree: the walked file
`e:\Vive\src\a.dart` has only non-excluded directory segments. -/
theorem claim_C1_witness : EXCLUDE_DIRS_CC.contains "src" = false :=
  (claim_C1 tA).1 (ROOT_PARTS ++ ["src", "a.dart"]) fA (by decide) "src" (by decide)

/-- C2 as stated is false on `combine_code.py`: the file `.env.json`
sits directly in the root (under no pruned directory), its extension
`.json` is in the inclusion set, yet it is not a candidate — the
per-file `is_excluded` check drops dot-named files. -/
theorem claim_C2_counterexample :
    (ROOT_PARTS ++ [".env.json"], fDotJson) ∈ walkG keepCC ROOT_PARTS tDotJson ∧
    includedCC ".env.json" = true ∧
    candidatesCC tDotJson = [] ∧
    eventsCC tDotJson = [] := by decide

/-- C2 amended: in `combine_native.py` the stated iff holds exactly; in
`combine_code.py` a walked file is a candidate iff it passes the
inclusion test *and* no segment of its full path (its own filename
included) is excluded or dot-named; in explicit-list mode a path is
processed iff it appears in `TARGET_FILES`. -/
theorem claim_C2 (t : Tree) (fs : String → WStat) :
    (∀ p f, (p, f) ∈ walkG keepCN [] t →
        ((p, f) ∈ candidatesCN t ↔ includedCN f.name = true)) ∧
    (∀ p f, (p, f) ∈ walkG keepCC ROOT_PARTS t →
        ((p, f) ∈ candidatesCC t ↔ (is_excludedCC p = false ∧ includedCC f.name = true))) ∧
    (∀ pw, (∃ ev ∈ eventsBW fs, ev.wpath = pw) ↔ pw ∈ TARGET_FILES) := by
  refine ⟨?_, ?_, ?_⟩
  · intro p f hw
    constructor
    · intro hc
      exact (List.mem_filter.mp hc).2
    · intro hi
      exact List.mem_filter.mpr ⟨hw, hi⟩
  · intro p f hw
    constructor
    · intro hc
      have := (List.mem_filter.mp hc).2
      simp only [Bool.and_eq_true, Bool.not_eq_true'] at this
      exact this
    · intro hi
      refine List.mem_filter.mpr ⟨hw, ?_⟩
      simp only [Bool.and_eq_true, Bool.not_eq_true']
      exact hi
  · intro pw
    constructor
    · rintro ⟨ev, hev, hw⟩
      rcases List.mem_map.mp hev with ⟨q, hq, hev'⟩
      have hq' : ev.wpath = q := by rw [← hev', processBW_wpath]
      rw [← hw, hq']
      exact hq
    · intro hp
      exact ⟨processBW fs pw, List.mem_map_of_mem _ hp, processBW_wpath fs pw⟩

/-- Witness for the amended C2 at a concrete tree: `.cfg.xml` is a
`combine_native.py` candidate exactly because its extension matches. -/
theorem claim_C2_witness :
    (([".cfg.xml"], fDotXml) ∈ candidatesCN tDotXml ↔ includedCN ".cfg.xml" = true) :=
  (claim_C2 tDotXml fsAbsent).1 [".cfg.xml"] fDotXml (by decide)

/-- C3: an included candidate strictly larger than 1 MiB is skipped with
a too-large report and none of its content is read, while a candidate of
exactly 1 MiB is added in full (in both `combine_code.py` and
`combine_native.py`). -/
theorem claim_C3 (t : Tree) (p : List String) (f : FileRec) :
    ((p, f) ∈ candidatesCC t →
      (1048576 < f.size →
        processSized (relPathFromRoot p) f = .tooLarge (relPathFromRoot p) ∧
        Event.tooLarge (relPathFromRoot p) ∈ eventsCC t) ∧
      (f.size = 1048576 → f.ioError = none →
        Event.added (relPathFromRoot p) (utf8DecodeIgnore f.bytes) ∈ eventsCC t)) ∧
    ((p, f) ∈ candidatesCN t →
      (1048576 < f.size →
        processSized p f = .tooLarge p ∧ Event.tooLarge p ∈ eventsCN t) ∧
      (f.size = 1048576 → f.ioError = none →
        Event.added p (utf8DecodeIgnore f.bytes) ∈ eventsCN t)) := by
  constructor
  · intro hmem
    constructor
    · intro hbig
      refine ⟨processSized_big hbig, ?_⟩
      have hin : processSized (relPathFromRoot p) f ∈ eventsCC t :=
        List.mem_map_of_mem _ hmem
      rwa [processSized_big hbig] at hin
    · intro hsz hio
      have hin : processSized (relPathFromRoot p) f ∈ eventsCC t :=
        List.mem_map_of_mem _ hmem
      rwa [processSized_ok (by omega) hio] at hin
  · intro hmem
    constructor
    · intro hbig
      refine ⟨processSized_big hbig, ?_⟩
      have hin : processSized p f ∈ eventsCN t :=
        List.mem_map_of_mem _ hmem
      rwa [processSized_big hbig] at hin
    · intro hsz hio
      have hin : processSized p f ∈ eventsCN t :=
        List.mem_map_of_mem _ hmem
      rwa [processSized_ok (by omega) hio] at hin

/-- Witness for C3 at a concrete tree: the 1 MiB file `b.dart` is added
in full while the 1 MiB + 1 byte file `h.dart` is reported too
large. -/
theorem claim_C3_witness :
    Event.added ["b.dart"] (utf8DecodeIgnore [104, 105]) ∈ eventsCC tBig ∧
    Event.tooLarge ["h.dart"] ∈ eventsCC tBig :=
  ⟨((claim_C3 tBig (ROOT_PARTS ++ ["b.dart"]) fBig).1 (by decide)).2 (by decide) rfl,
   (((claim_C3 tBig (ROOT_PARTS ++ ["h.dart"]) fHuge).1 (by decide)).1 (by decide)).2⟩

/-- C4: when the configured root is missing or not a directory, both
sized variants fail before producing any output — the output file lives
inside the root, so opening it raises first. -/
theorem claim_C4 :
    mainCC .missing = .error .rootInvalid ∧ mainCC .nonDir = .error .rootInvalid ∧
    mainCN .missing = .error .rootInvalid ∧ mainCN .nonDir = .error .rootInvalid :=
  ⟨rfl, rfl, rfl, rfl⟩

/-- C5 as stated is false: `errors='ignore'` *drops* undecodable bytes
instead of substituting a placeholder.  The file `a.md` with bytes
`FF 41` is bundled with content `A` — the invalid byte leaves no
substitution character (U+FFFD or otherwise) in the output. -/
theorem claim_C5_counterexample :
    eventsCC tBadBytes = [.added ["a.md"] ['A']] ∧
    utf8DecodeIgnore [255, 65] = ['A'] ∧
    ('�' ∈ utf8DecodeIgnore [255, 65]) = False := by decide

/-- C5 amended: bytes at which no valid sequence starts are silently
dropped from the decoded content (not replaced), and decoding never
fails — a readable, non-oversized file is always added with the total
decode of its bytes. -/
theorem claim_C5 (b : Nat) (bs : List Nat) (h : invalidStarter b = true) :
    utf8DecodeIgnore (b :: bs) = utf8DecodeIgnore bs ∧
    (∀ (q : List String) (f : FileRec), ¬ f.size > 1024 * 1024 → f.ioError = none →
      processSized q f = .added q (utf8DecodeIgnore f.bytes)) :=
  ⟨utf8DecodeIgnore_invalid b bs h, fun _ _ h1 h2 => processSized_ok h1 h2⟩

/-- Witness for the amended C5: the invalid byte FF before a `B` is
dropped. -/
theorem claim_C5_witness : utf8DecodeIgnore [255, 66] = utf8DecodeIgnore [66] :=
  (claim_C5 255 [66] (by decide)).1

/-- C6: a candidate whose read fails yields a caught read-error event
with its cause, while every other candidate is still processed — the run
completes (same for a failing listed file in the widget bundler). -/
theorem claim_C6 (t : Tree) (p : List String) (f : FileRec) (e : String)
    (hmem : (p, f) ∈ candidatesCC t) (herr : f.ioError = some e)
    (hsz : ¬ f.size > 1024 * 1024) :
    Event.readError (relPathFromRoot p) e ∈ eventsCC t ∧
    (∀ q g, (q, g) ∈ candidatesCC t → processSized (relPathFromRoot q) g ∈ eventsCC t) ∧
    (∀ (fs : String → WStat) (pw : String) (bw : List Nat) (ew : String),
      pw ∈ TARGET_FILES → fs pw = .present bw (some ew) →
        WEvent.readError pw ew ∈ eventsBW fs ∧ (eventsBW fs).length = TARGET_FILES.length) := by
  refine ⟨?_, ?_, ?_⟩
  · have hin : processSized (relPathFromRoot p) f ∈ eventsCC t := List.mem_map_of_mem _ hmem
    rwa [processSized_err hsz herr] at hin
  · intro q g hq
    exact List.mem_map_of_mem _ hq
  · intro fs pw bw ew hpw hfs
    constructor
    · have hin : processBW fs pw ∈ eventsBW fs := List.mem_map_of_mem _ hpw
      have hrw : processBW fs pw = .readError pw ew := by
        rw [processBW.eq_def, hfs]
      rwa [hrw] at hin
    · rw [eventsBW, List.length_map]

/-- Witness for C6 at a concrete tree: the unreadable `c.dart` is
reported and the readable `a.dart` is still processed. -/
theorem claim_C6_witness :
    Event.readError ["c.dart"] "PermissionError" ∈ eventsCC tErr ∧
    processSized ["a.dart"] fA ∈ eventsCC tErr :=
  ⟨(claim_C6 tErr (ROOT_PARTS ++ ["c.dart"]) fErr "PermissionError" (by decide) rfl
      (by decide)).1,
   (claim_C6 tErr (ROOT_PARTS ++ ["c.dart"]) fErr "PermissionError" (by decide) rfl
      (by decide)).2.1 (ROOT_PARTS ++ ["a.dart"]) fA (by decide)⟩

/-- C7: the widget bundle's output blocks are exactly the listed paths
that exist and are readable, in list order; every listed path is
processed; a missing listed path yields a not-found warning and no
output block, without aborting. -/
theorem claim_C7 (fs : String → WStat) :
    addedPathsBW (eventsBW fs) = TARGET_FILES.filter (readableBW fs) ∧
    (eventsBW fs).length = TARGET_FILES.length ∧
    (∀ p ∈ TARGET_FILES, fs p = .absent →
      WEvent.notFound p ∈ eventsBW fs ∧ ∀ c, WEvent.added p c ∉ eventsBW fs) := by
  refine ⟨addedPathsBW_filter fs TARGET_FILES, by rw [eventsBW, List.length_map], ?_⟩
  intro p hp habs
  constructor
  · have hin : processBW fs p ∈ eventsBW fs := List.mem_map_of_mem _ hp
    have hrw : processBW fs p = .notFound p := by rw [processBW.eq_def, habs]
    rwa [hrw] at hin
  · intro c hadd
    rcases List.mem_map.mp hadd with ⟨q, _, heq⟩
    have hqp : p = q := by
      have hw := processBW_wpath fs q
      rw [heq] at hw
      exact hw
    rw [← hqp, processBW.eq_def, habs] at heq
    simp at heq

/-- Witness for C7: with only `ios\Podfile` on disk, the listed Dart
service file is reported not found and produces no block. -/
theorem claim_C7_witness :
    WEvent.notFound "lib\\core\\services\\widget_update_service.dart" ∈ eventsBW fsOne ∧
    ∀ c, WEvent.added "lib\\core\\services\\widget_update_service.dart" c ∉ eventsBW fsOne :=
  (claim_C7 fsOne).2.2 "lib\\core\\services\\widget_update_service.dart" (by decide) (by decide)

/-- C8 as stated is false: `combine_native.py` bundles a dot-named
*file* whose extension matches (only directories are pruned there), and
`combine_script.py` walks straight into a dot-named directory that is
not in its exclusion list. -/
theorem claim_C8_counterexample :
    Event.added [".cfg.xml"] ['a'] ∈ eventsCN tDotXml ∧
    Event.added ["lib", ".foo", "x.dart"] ['a'] ∈ eventsCS tDotDirCS := by decide

/-- C8 amended: in `combine_code.py` no event path contains any
dot-named segment (directory or file); in `combine_native.py` dot-named
directories are pruned (no walked file lies below one), but dot-named
files are not excluded. -/
theorem claim_C8 (t : Tree) :
    (∀ ev, ev ∈ eventsCC t → ∀ seg ∈ ev.path, startsWithDot seg = false) ∧
    (∀ p f, (p, f) ∈ walkG keepCN [] t → ∀ seg ∈ p.dropLast, startsWithDot seg = false) := by
  constructor
  · intro ev hev seg hseg
    rcases List.mem_map.mp hev with ⟨⟨p, f⟩, hmem, hev'⟩
    have hf := (List.mem_filter.mp hmem).2
    simp only [Bool.and_eq_true, Bool.not_eq_true'] at hf
    have hpath : ev.path = relPathFromRoot p := by rw [← hev', processSized_path]
    rw [hpath, relPathFromRoot] at hseg
    have hsegp : seg ∈ p := List.drop_subset _ _ hseg
    exact (is_excludedCC_false hf.1 seg hsegp).2
  · intro p f hmem seg hseg
    rcases walkG_mem _ keepCN_good [] t hmem with ⟨dirs, hshape, hdirs⟩
    have hp : p = dirs ++ [f.name] := by simpa using hshape
    rw [hp, List.dropLast_concat] at hseg
    have := hdirs seg hseg
    simp only [Bool.and_eq_true, Bool.not_eq_true'] at this
    exact this.2

/-- Witness for the amended C8: the bundled entry `src/a.dart` of a
concrete `combine_code.py` run has no dot-named segment. -/
theorem claim_C8_witness : startsWithDot "src" = false :=
  (claim_C8 tA).1 (Event.added ["src", "a.dart"] ['h']) (by decide) "src" (by decide)

/-- C9: on a well-formed filesystem, each run's entries have
pairwise-distinct paths (no file is bundled twice or rewritten), and in
explicit-list mode the reported paths are exactly the (duplicate-free)
list, in order. -/
theorem claim_C9 (t : Tree) (hwf : treeWF t = true) :
    ((eventsCC t).map Event.path).Nodup ∧
    ((eventsCN t).map Event.path).Nodup ∧
    ((eventsCS t).map Event.path).Nodup ∧
    (∀ fs, (eventsBW fs).map WEvent.wpath = TARGET_FILES) ∧
    TARGET_FILES.Nodup := by
  refine ⟨eventsCC_nodup t hwf, ?_, eventsCS_nodup t hwf, ?_, by decide⟩
  · rw [eventsCN, map_path_processSized_id]
    exact List.Nodup.sublist (List.Sublist.map _ (List.filter_sublist _))
      (walkG_nodup keepCN [] t hwf)
  · intro fs
    rw [eventsBW]
    have hgen : ∀ l : List String, (l.map (processBW fs)).map WEvent.wpath = l := by
      intro l
      induction l with
      | nil => rfl
      | cons a l ih => simp [processBW_wpath, ih]
    exact hgen TARGET_FILES

/-- Witness for C9 at concrete trees. -/
theorem claim_C9_witness :
    ((eventsCC tA).map Event.path).Nodup ∧ ((eventsCS tDotDirCS).map Event.path).Nodup :=
  ⟨(claim_C9 tA (by decide)).1, (claim_C9 tDotDirCS (by decide)).2.2.1⟩

/-- C10: no run ever bundles its own output file — the output names end
in `.txt`, which no inclusion policy accepts, `combine_script.py`
additionally skips its output by name, and the widget list does not
contain the widget bundle's name. -/
theorem claim_C10 (t : Tree) (fs : String → WStat) :
    (∀ ev, ev ∈ eventsCC t → ev.path.getLastD "" ≠ "all_project_code.txt") ∧
    (∀ ev, ev ∈ eventsCN t → ev.path.getLastD "" ≠ "all_native_code.txt") ∧
    (∀ p c, Event.added p c ∈ eventsCS t → p ≠ [output_file]) ∧
    (∀ ev, ev ∈ eventsBW fs → WEvent.wpath ev ≠ "widget_deep_dive_bundle.txt") := by
  refine ⟨?_, ?_, ?_, ?_⟩
  · intro ev hev heq
    rcases List.mem_map.mp hev with ⟨⟨p, f⟩, hmem, hev'⟩
    rcases candidateCC_rel hmem with ⟨dirs, hrel, _⟩
    have hincf : includedCC f.name = true := by
      have := (List.mem_filter.mp hmem).2
      simp only [Bool.and_eq_true] at this
      exact this.2
    have hpath : ev.path = relPathFromRoot p := by rw [← hev', processSized_path]
    rw [hpath, hrel] at heq
    simp at heq
    rw [heq] at hincf
    exact absurd hincf (by decide)
  · intro ev hev heq
    rcases List.mem_map.mp hev with ⟨⟨p, f⟩, hmem, hev'⟩
    have hincf : includedCN f.name = true := (List.mem_filter.mp hmem).2
    have hwalk : (p, f) ∈ walkG keepCN [] t := (List.mem_filter.mp hmem).1
    rcases walkG_shape [] t hwalk with ⟨dirs, hshape⟩
    have hp : p = dirs ++ [f.name] := by simpa using hshape
    have hpath : ev.path = p := by rw [← hev', processSized_path]
    rw [hpath, hp] at heq
    simp at heq
    rw [heq] at hincf
    exact absurd hincf (by decide)
  · intro p c hadd
    rw [eventsCS] at hadd
    rcases List.mem_append.mp hadd with hw | hr
    · have hlong : 2 ≤ p.length := walkPassCS_long hw
      intro heq
      rw [heq] at hlong
      simp [output_file] at hlong
    · rw [rootPassCS] at hr
      rcases List.mem_flatMap.mp hr with ⟨ent, _, hmem⟩
      rcases rootEntryEventsCS_added hmem with ⟨hp, hneq⟩
      intro heq
      rw [hp] at heq
      have hname : ent.entName = output_file := by simpa using heq
      rw [hname] at hneq
      simp at hneq
  · intro ev hev heq
    rcases List.mem_map.mp hev with ⟨q, hq, hev'⟩
    have hwq : ev.wpath = q := by rw [← hev', processBW_wpath]
    rw [hwq] at heq
    have hall : ∀ x ∈ TARGET_FILES, x ≠ "widget_deep_dive_bundle.txt" := by decide
    exact hall q hq heq

/-- Witness for C10 at a concrete tree: the bundled entry `a.dart` is
not the output file. -/
theorem claim_C10_witness :
    (Event.added ["a.dart"] ['h']).path.getLastD "" ≠ "all_project_code.txt" :=
  (claim_C10 tA fsAbsent).1 (Event.added ["a.dart"] ['h']) (by decide)

end NockBundle
